import Mathlib

/-!
Verification of the duplicate-photo detection and deletion tools
(`find_duplicates.py`, `delete_files.py`) against their specification.

The Python sources are shallowly embedded below: the filesystem is a list
of entries (a static directory snapshot), file contents are byte lists,
decoded images are grayscale pixel grids, and the external libraries
(`hashlib`, `PIL`, `imagehash`) are modelled by explicit Lean functions or
by an abstract streaming-hash structure, as noted at each definition.
-/

namespace DupFinder

/-- Model of one directory entry of the source folder (a static snapshot,
matching the program's single-pass batch design).  `name` is the file's
path string, `isFile` models `Path.is_file()`, `readErr` models an I/O
error being raised when the file is opened or read, `content` is the byte
sequence of the file, and `image` is the decoded grayscale pixel grid
(`none` when the image decoder fails on this file). -/
structure FSEntry where
  name : String
  isFile : Bool
  readErr : Bool
  content : List Nat
  image : Option (List (List Nat))
deriving DecidableEq, Repr

/-- Embeds `DuplicateFinder.safe_file_access` (find_duplicates.py:38-50):
the entry exists (it is part of the snapshot), is a regular file, and an
open-plus-`read(1)` attempt raises no error.  Note the Python probe
succeeds on a zero-byte file: `f.read(1)` returns `b""` without raising. -/
def safe_file_access (e : FSEntry) : Bool :=
  e.isFile && !e.readErr

/-- The extension allow-list `supported_formats` (find_duplicates.py:29). -/
def supported_formats : List String :=
  [".jpg", ".jpeg", ".png", ".bmp", ".tiff", ".webp"]

/-- Index of the last `'.'` in a character list, if any. -/
def lastDotIdx (cs : List Char) : Option Nat :=
  match cs.reverse.findIdx? (fun c => c = '.') with
  | none => none
  | some j => some (cs.length - 1 - j)

/-- Embeds Python's `PurePath.suffix`: the substring from the last dot of
the name, provided that dot is neither the leading nor the trailing
character; otherwise the empty string. -/
def pySuffix (s : String) : String :=
  match lastDotIdx s.data with
  | none => ""
  | some i => if 0 < i ∧ i + 1 < s.data.length then ⟨s.data.drop i⟩ else ""

/-- ASCII lower-casing of one character, as `str.lower()` acts on the
ASCII range (file extensions here are ASCII). -/
def asciiLower (c : Char) : Char :=
  if 65 ≤ c.toNat ∧ c.toNat ≤ 90 then Char.ofNat (c.toNat + 32) else c

/-- Embeds `file_path.suffix.lower()` (find_duplicates.py:59). -/
def lowerSuffix (s : String) : String :=
  ⟨(pySuffix s).data.map asciiLower⟩

/-- The extension test of find_duplicates.py:59-60: the lower-cased suffix
is in the allow-list. -/
def extAllowed (e : FSEntry) : Bool :=
  supported_formats.contains (lowerSuffix e.name)

/-- Lexicographic (code-point) comparison of two character lists; this is
how Python orders the path strings handed to `sorted`. -/
def lexLe : List Char → List Char → Bool
  | [], _ => true
  | _ :: _, [] => false
  | a :: as, b :: bs =>
    if a.toNat < b.toNat then true
    else if b.toNat < a.toNat then false
    else lexLe as bs

/-- Path order used by `sorted(list(images))` (find_duplicates.py:69):
code-point lexicographic comparison of the path strings. -/
def nameLe (a b : FSEntry) : Prop :=
  lexLe a.name.data b.name.data = true

instance : DecidableRel nameLe := fun _ _ => Bool.decEq _ _

/-- Embeds `DuplicateFinder.get_image_files` (find_duplicates.py:52-71):
keep the regular files whose lower-cased suffix is allowed; those passing
`safe_file_access` go into a set (`dedup`) and are returned sorted by
path (a stable sort models Python's `sorted`); the others produce a
warning message (the `AVISO` print) and are skipped.  Returns the sorted
accessible files together with the list of warned-about file names. -/
def get_image_files (fs : List FSEntry) : List FSEntry × List String :=
  let candidates := fs.filter fun e => e.isFile && extAllowed e
  let accessible := (candidates.filter fun e => safe_file_access e).dedup
  let warned := (candidates.filter fun e => !safe_file_access e).map (·.name)
  (List.insertionSort nameLe accessible, warned)

/-- Splits a byte list into successive 4096-byte chunks (structural
recursion on a fuel that bounds the number of reads: each read consumes
at least one byte, so `l.length` fuel always suffices). -/
def chunksFuel : Nat → List Nat → List (List Nat)
  | 0, _ => []
  | _, [] => []
  | fuel + 1, b :: rest => ((b :: rest).take 4096) :: chunksFuel fuel ((b :: rest).drop 4096)

/-- The 4096-byte chunking of a file's content, embedding the
`iter(lambda: f.read(4096), b"")` read loop of find_duplicates.py:81. -/
def chunks4096 (l : List Nat) : List (List Nat) :=
  chunksFuel l.length l

/-- Modelled from the library: `hashlib.md5` is external to the repo, so
the streaming hash object is abstracted to an initial state, a per-chunk
`update`, and a final 128-bit digest value.  Every theorem below holds
for every such algorithm. -/
structure HashAlg (S : Type) where
  init : S
  update : S → List Nat → S
  digestNat : S → Nat

/-- Feed the 4096-byte chunks of a file's content through the streaming
hash and take the final 128-bit digest value. -/
def md5StreamDigest {S : Type} (A : HashAlg S) (content : List Nat) : Nat :=
  A.digestNat ((chunks4096 content).foldl A.update A.init) % (2 ^ 128)

/-- The sixteen lowercase hexadecimal digit characters. -/
def hexDigitChar (n : Nat) : Char :=
  if n < 10 then Char.ofNat (48 + n) else Char.ofNat (87 + n)

/-- Fixed-width lowercase hexadecimal rendering (most significant digit
first), embedding `hexdigest()` of a 128-bit digest as 32 hex chars. -/
def toHexFixed (n w : Nat) : List Char :=
  (List.range w).map fun i => hexDigitChar (n / 16 ^ (w - 1 - i) % 16)

/-- Embeds `DuplicateFinder.calculate_md5` (find_duplicates.py:73-86): the
empty-string sentinel when the file cannot be accessed, otherwise the
32-character lowercase hex digest of the streamed content. -/
def calculate_md5 {S : Type} (A : HashAlg S) (e : FSEntry) : String :=
  if safe_file_access e then ⟨toHexFixed (md5StreamDigest A e.content) 32⟩ else ""

/-- Appends one value to the group of key `k` in an association list,
creating the group at the end when the key is new: this is exactly how
`defaultdict(list)` behaves under `self.md5_duplicates[md5].append(...)`
(find_duplicates.py:115), with dict insertion order preserved. -/
def groupInsert : List (String × List String) → String → String → List (String × List String)
  | [], k, v => [(k, [v])]
  | (k₀, vs) :: rest, k, v =>
    if k₀ = k then (k₀, vs ++ [v]) :: rest else (k₀, vs) :: groupInsert rest k v

/-- Looks up the group of a key in the association list. -/
def findGroup : List (String × List String) → String → Option (List String)
  | [], _ => none
  | (k₀, vs) :: rest, k => if k₀ = k then some vs else findGroup rest k

/-- The digesting loop of `find_md5_duplicates` (find_duplicates.py:109-115):
each image in order is digested; a non-empty digest files the image's path
under that digest. -/
def md5GroupsAux {S : Type} (A : HashAlg S) :
    List FSEntry → List (String × List String) → List (String × List String)
  | [], m => m
  | e :: rest, m =>
    let d := calculate_md5 A e
    if d = "" then md5GroupsAux A rest m else md5GroupsAux A rest (groupInsert m d e.name)

/-- Embeds `DuplicateFinder.find_md5_duplicates` (find_duplicates.py:102-121):
group the images by digest, then drop the groups with a single file
(find_duplicates.py:118). -/
def find_md5_duplicates {S : Type} (A : HashAlg S) (images : List FSEntry) :
    List (String × List String) :=
  (md5GroupsAux A images []).filter fun kv => 1 < kv.2.length

/-- Modelled from the library: `PIL.Image.resize` is external to the repo;
it is modelled as a deterministic downsampling of the pixel grid to `h`
rows of `w` samples each (index-scaled sampling).  Only its output shape
and determinism matter to the claims. -/
def resizeGrid (img : List (List Nat)) (w h : Nat) : List (List Nat) :=
  (List.range h).map fun r =>
    (List.range w).map fun c =>
      (img.getD (r * img.length / h) []).getD (c * (img.headD []).length / w) 0

/-- Modelled from the library: `imagehash.dhash(img, hash_size)` resizes
the grayscale image to `hash_size + 1` columns by `hash_size` rows and
emits, row-major, one bit per horizontally adjacent sample pair — `true`
when the right sample is strictly brighter (find_duplicates.py:96 calls
this with `hash_size=16`, so the fingerprint has `16 * 16 = 256` bits). -/
def dhash (img : List (List Nat)) (hashSize : Nat) : List Bool :=
  let px := resizeGrid img (hashSize + 1) hashSize
  px.flatMap fun row =>
    (List.range hashSize).map fun j => decide (row.getD j 0 < row.getD (j + 1) 0)

/-- Hex character of a four-bit group, most significant bit first. -/
def nibbleChar (b₃ b₂ b₁ b₀ : Bool) : Char :=
  hexDigitChar ((cond b₃ 8 0) + (cond b₂ 4 0) + (cond b₁ 2 0) + (cond b₀ 1 0))

/-- Modelled from the library: `str(hash)` on an `imagehash.ImageHash`
renders the bit vector as lowercase hex, four bits per character. -/
def bitsToHex : List Bool → List Char
  | b₃ :: b₂ :: b₁ :: b₀ :: rest => nibbleChar b₃ b₂ b₁ b₀ :: bitsToHex rest
  | [b₃, b₂, b₁] => [nibbleChar b₃ b₂ b₁ false]
  | [b₃, b₂] => [nibbleChar b₃ b₂ false false]
  | [b₃] => [nibbleChar b₃ false false false]
  | [] => []

/-- Four bits of one hex character, most significant first. -/
def charNibble (c : Char) : List Bool :=
  let n := if 97 ≤ c.toNat then c.toNat - 87 else c.toNat - 48
  [decide (n / 8 % 2 = 1), decide (n / 4 % 2 = 1), decide (n / 2 % 2 = 1), decide (n % 2 = 1)]

/-- Modelled from the library: `imagehash.hex_to_hash` parses the hex
string back into the bit vector (find_duplicates.py:135). -/
def hexToBits (cs : List Char) : List Bool :=
  cs.flatMap charNibble

/-- Embeds `DuplicateFinder.calculate_perceptual_hash`
(find_duplicates.py:88-100): the empty-string sentinel when the file is
inaccessible or the image decoder fails, otherwise the hex rendering of
the 256-bit difference hash (`hash_size=16`). -/
def calculate_perceptual_hash (e : FSEntry) : String :=
  if safe_file_access e then
    match e.image with
    | none => ""
    | some img => ⟨bitsToHex (dhash img 16)⟩
  else ""

/-- The hash-collection loop of `find_perceptual_duplicates`
(find_duplicates.py:128-141): images whose perceptual hash is non-empty
are paired, in enumeration order, with the bit vector decoded back from
the hex string by `hex_to_hash`. -/
def imageHashes (images : List FSEntry) : List (String × List Bool) :=
  images.filterMap fun e =>
    if calculate_perceptual_hash e = "" then none
    else some (e.name, hexToBits (calculate_perceptual_hash e).data)

/-- Hamming distance of two equal-length bit vectors; this is what the
`hash1 - hash2` subtraction of `imagehash.ImageHash` computes
(find_duplicates.py:161). -/
def hammingDist (h₁ h₂ : List Bool) : Nat :=
  (List.zipWith (fun a b => if a = b then 0 else 1) h₁ h₂).sum

/-- The similarity score exactly as the code computes it
(find_duplicates.py:162): `1.0 - diff / 64.0`, with the divisor
hard-coded to `64.0` whatever the fingerprint length is. -/
def pairSimilarity (h₁ h₂ : List Bool) : ℚ :=
  1 - (hammingDist h₁ h₂ : ℚ) / 64

/-- The similarity score as the specification words it: one minus the
Hamming distance divided by the fingerprint bit-length. -/
def specSimilarity (h₁ h₂ : List Bool) : ℚ :=
  1 - (hammingDist h₁ h₂ : ℚ) / (h₁.length : ℚ)

/-- The inner scan of the clusterer (find_duplicates.py:155-168): walk the
images after the anchor; each one not yet assigned whose similarity to
the anchor reaches the threshold joins the group and is added to the
assigned set at once.  Returns the joined names in order together with
the updated assigned set. -/
def joinLater (sim : List Bool → List Bool → ℚ) (T : ℚ) (anchor : List Bool) :
    List (String × List Bool) → List String → List String × List String
  | [], assigned => ([], assigned)
  | (p, h) :: rest, assigned =>
    if p ∈ assigned then joinLater sim T anchor rest assigned
    else if T ≤ sim anchor h then
      let r := joinLater sim T anchor rest (p :: assigned)
      (p :: r.1, r.2)
    else joinLater sim T anchor rest assigned

/-- The outer clustering loop of `find_perceptual_duplicates`
(find_duplicates.py:146-175): skip anchors already assigned; otherwise
scan the later images, keep the group only when someone joined (so its
size is at least 2), and in that case add the whole group — in
particular the anchor — to the assigned set. -/
def clusterGreedy (sim : List Bool → List Bool → ℚ) (T : ℚ) :
    List (String × List Bool) → List String → List (List String)
  | [], _ => []
  | (p, h) :: rest, assigned =>
    if p ∈ assigned then clusterGreedy sim T rest assigned
    else
      let r := joinLater sim T h rest assigned
      if r.1.isEmpty then clusterGreedy sim T rest r.2
      else (p :: r.1) :: clusterGreedy sim T rest (p :: r.2)

/-- Embeds `DuplicateFinder.find_perceptual_duplicates`
(find_duplicates.py:123-177): collect the non-empty fingerprints in
enumeration order and run the greedy clusterer over them with the
similarity formula of line 162. -/
def find_perceptual_duplicates (T : ℚ) (images : List FSEntry) : List (List String) :=
  clusterGreedy pairSimilarity T (imageHashes images) []

/-- Follows the spec's words (spec 4.4, steps 1-4): iterate the
fingerprinted images in order, skip the assigned ones, anchor a group at
the current image, let the later not-yet-assigned similar images join
and be marked assigned, and keep the group exactly when it has at least
2 members (otherwise the anchor stays ungrouped and nothing is marked). -/
def specGreedyAux (sim : List Bool → List Bool → ℚ) (T : ℚ) :
    List (String × List Bool) → List String → List (List String)
  | [], _ => []
  | (p, h) :: rest, assigned =>
    if p ∈ assigned then specGreedyAux sim T rest assigned
    else
      let r := joinLater sim T h rest assigned
      if 2 ≤ (p :: r.1).length then (p :: r.1) :: specGreedyAux sim T rest r.2
      else specGreedyAux sim T rest assigned

/-- The serialized findings of one run, embedding the record built by
`save_results_json` (find_duplicates.py:208-238): the count of analyzed
images and the two group collections (timestamp omitted: wall-clock time
is outside the model). -/
structure Report where
  total_images : Nat
  md5_groups : List (String × List String)
  perc_groups : List (List String)
deriving DecidableEq, Repr

/-- One full detection run as `main` performs it
(find_duplicates.py:240-264): enumerate, digest and group exactly, then
cluster perceptually with the given threshold; `total_images` is
`len(self.all_images)`, the count of enumerated accessible files
(find_duplicates.py:107,185,212).  Also returns the warnings issued
while enumerating. -/
def runDetection {S : Type} (A : HashAlg S) (T : ℚ) (fs : List FSEntry) :
    Report × List String :=
  let en := get_image_files fs
  ({ total_images := en.1.length
     md5_groups := find_md5_duplicates A en.1
     perc_groups := find_perceptual_duplicates T en.1 }, en.2)

/-- Observable filesystem actions of the delete executor. -/
inductive DelAction where
  | warnMissing (p : String)
  | backupCopy (p : String)
  | unlink (p : String)
deriving DecidableEq, Repr

/-- Environment outcome for one path: whether `shutil.copy2` and
`Path.unlink` succeed on it or raise. -/
structure DelOutcome where
  copyOk : Bool
  unlinkOk : Bool

/-- Result of the per-file loop of `create_backup_and_delete`. -/
structure DelResult where
  trace : List DelAction
  deleted : Nat
  errors : Nat
deriving Repr

/-- Embeds the per-file loop of `create_backup_and_delete`
(delete_files.py:47-68) over the approved deletion list: a missing file
is warned about and counted as an error; otherwise the file is copied
into the backup directory and only then unlinked, any exception in
either step being caught and counted as an error for that file alone.
`fs` is the set of currently existing source paths; an unlinked path is
removed from it. -/
def deleteRun (fs : List String) (oc : String → DelOutcome) :
    List String → DelResult
  | [] => ⟨[], 0, 0⟩
  | p :: rest =>
    if p ∈ fs then
      if (oc p).copyOk then
        if (oc p).unlinkOk then
          let r := deleteRun (fs.erase p) oc rest
          ⟨DelAction.backupCopy p :: DelAction.unlink p :: r.trace, r.deleted + 1, r.errors⟩
        else
          let r := deleteRun fs oc rest
          ⟨DelAction.backupCopy p :: r.trace, r.deleted, r.errors + 1⟩
      else
        let r := deleteRun fs oc rest
        ⟨r.trace, r.deleted, r.errors + 1⟩
    else
      let r := deleteRun fs oc rest
      ⟨DelAction.warnMissing p :: r.trace, r.deleted, r.errors + 1⟩

/-- The temporal backup-before-unlink property of an action trace, read
left to right: a path may be unlinked only when a backup copy of it was
made earlier in the trace (`backed` carries the paths backed up so far). -/
def safeBackup (backed : List String) : List DelAction → Prop
  | [] => True
  | DelAction.backupCopy p :: rest => safeBackup (p :: backed) rest
  | DelAction.unlink p :: rest => p ∈ backed ∧ safeBackup backed rest
  | DelAction.warnMissing _ :: rest => safeBackup backed rest

/-! ### Concrete material used by witnesses and counterexamples -/

/-- A concrete streaming-hash instance (state: running byte sum) used to
instantiate the abstract `HashAlg` in witnesses. -/
def natAlg : HashAlg Nat :=
  ⟨0, fun s c => s + c.sum, fun s => s⟩

/-- A one-pixel black image; its 256-bit difference hash is all zeros. -/
def imgFlat : List (List Nat) := [[0]]

/-- A pixel row alternating black and white: its 16 difference bits are
true at the 8 even positions. -/
def rowAlt : List Nat := [0, 1, 0, 1, 0, 1, 0, 1, 0, 1, 0, 1, 0, 1, 0, 1, 0]

/-- A pixel row whose first half alternates: 4 true difference bits. -/
def rowHalf : List Nat := [0, 1, 0, 1, 0, 1, 0, 1, 0, 0, 0, 0, 0, 0, 0, 0, 0]

/-- An all-black pixel row: no true difference bits. -/
def rowFlat : List Nat := [0, 0, 0, 0, 0, 0, 0, 0, 0, 0, 0, 0, 0, 0, 0, 0, 0]

/-- A 16-by-17 image whose difference hash has exactly 20 true bits, so
its Hamming distance to `imgFlat`'s hash is 20. -/
def imgDiff20 : List (List Nat) :=
  [rowAlt, rowAlt, rowHalf, rowFlat, rowFlat, rowFlat, rowFlat, rowFlat,
   rowFlat, rowFlat, rowFlat, rowFlat, rowFlat, rowFlat, rowFlat, rowFlat]

/-- A readable, decodable image file. -/
def fileFlat : FSEntry := ⟨"a.jpg", true, false, [7], some imgFlat⟩

/-- A second readable, decodable file with the same byte content and the
same pixels as `fileFlat` but a different path. -/
def fileFlat2 : FSEntry := ⟨"c.jpg", true, false, [7], some imgFlat⟩

/-- A readable, decodable file whose fingerprint is at Hamming distance
20 from `fileFlat`'s. -/
def fileDiff : FSEntry := ⟨"b.jpg", true, false, [8], some imgDiff20⟩

/-- An image file whose bytes cannot be read (the probe raises). -/
def fileBad : FSEntry := ⟨"z.jpg", true, true, [7], none⟩

/-- A readable file on which the image decoder fails. -/
def fileCorrupt : FSEntry := ⟨"d.jpg", true, false, [9], none⟩

/-- The sixteen lowercase hexadecimal digit characters. -/
def hexDigits : List Char := "0123456789abcdef".data

/-- Follows the spec's words (spec 4.1): the readability probe is said to
require that the file exists, is a regular file, and at least one byte
can be read from it — so a zero-byte file fails this worded probe. -/
def specReadProbe (e : FSEntry) : Prop :=
  e.isFile = true ∧ e.readErr = false ∧ e.content ≠ []

/-- A zero-byte regular file with an allowed extension and no read error. -/
def fileEmpty : FSEntry := ⟨"empty.jpg", true, false, [], none⟩

/-! ### Helper lemmas -/

theorem lexLe_total (a b : List Char) : lexLe a b = true ∨ lexLe b a = true := by
  induction a generalizing b with
  | nil => left; rfl
  | cons x xs ih =>
    cases b with
    | nil => right; rfl
    | cons y ys =>
      rcases Nat.lt_trichotomy x.toNat y.toNat with h | h | h
      · left; simp [lexLe, h]
      · rcases ih ys with h₂ | h₂
        · left; simp [lexLe, h, h₂]
        · right; simp [lexLe, h.symm, h₂]
      · right; simp [lexLe, h]

theorem lexLe_trans (a b c : List Char) (h₁ : lexLe a b = true) (h₂ : lexLe b c = true) :
    lexLe a c = true := by
  induction a generalizing b c with
  | nil => rfl
  | cons x xs ih =>
    cases b with
    | nil => simp [lexLe] at h₁
    | cons y ys =>
      cases c with
      | nil => simp [lexLe] at h₂
      | cons z zs =>
        simp only [lexLe] at h₁ h₂ ⊢
        by_cases hxy : x.toNat < y.toNat
        · by_cases hyz : y.toNat < z.toNat
          · simp [Nat.lt_trans hxy hyz]
          · by_cases hzy : z.toNat < y.toNat
            · simp [if_neg hyz, if_pos hzy] at h₂
            · have hyz' : y.toNat = z.toNat :=
                Nat.le_antisymm (Nat.le_of_not_lt hzy) (Nat.le_of_not_lt hyz)
              simp [hyz' ▸ hxy]
        · by_cases hyx : y.toNat < x.toNat
          · simp [if_neg hxy, if_pos hyx] at h₁
          · have hxy' : x.toNat = y.toNat :=
              Nat.le_antisymm (Nat.le_of_not_lt hyx) (Nat.le_of_not_lt hxy)
            simp only [if_neg hxy, if_neg hyx] at h₁
            by_cases hyz : y.toNat < z.toNat
            · simp [hxy' ▸ hyz]
            · by_cases hzy : z.toNat < y.toNat
              · simp [if_neg hyz, if_pos hzy] at h₂
              · have hyz' : y.toNat = z.toNat :=
                  Nat.le_antisymm (Nat.le_of_not_lt hzy) (Nat.le_of_not_lt hyz)
                simp only [if_neg hyz, if_neg hzy] at h₂
                have hxz : ¬ x.toNat < z.toNat := by omega
                have hzx : ¬ z.toNat < x.toNat := by omega
                simp [if_neg hxz, if_neg hzx, ih ys zs h₁ h₂]

theorem joinLater_snd (sim : List Bool → List Bool → ℚ) (T : ℚ) (anchor : List Bool)
    (l : List (String × List Bool)) (assigned : List String) :
    (joinLater sim T anchor l assigned).2 =
      (joinLater sim T anchor l assigned).1.reverse ++ assigned := by
  induction l generalizing assigned with
  | nil => simp [joinLater]
  | cons ph rest ih =>
    obtain ⟨p, h⟩ := ph
    simp only [joinLater]
    by_cases hmem : p ∈ assigned
    · simp [if_pos hmem, ih]
    · simp only [if_neg hmem]
      by_cases hsim : T ≤ sim anchor h
      · simp only [if_pos hsim]
        rw [ih (p :: assigned)]
        simp
      · simp [if_neg hsim, ih]

theorem joinLater_fst_congr (sim : List Bool → List Bool → ℚ) (T : ℚ) (anchor : List Bool)
    (l : List (String × List Bool)) (as₁ as₂ : List String)
    (hag : ∀ q ∈ l.map Prod.fst, (q ∈ as₁ ↔ q ∈ as₂)) :
    (joinLater sim T anchor l as₁).1 = (joinLater sim T anchor l as₂).1 := by
  induction l generalizing as₁ as₂ with
  | nil => rfl
  | cons ph rest ih =>
    obtain ⟨p, h⟩ := ph
    have hp : p ∈ as₁ ↔ p ∈ as₂ := hag p (by simp)
    have hag' : ∀ q ∈ rest.map Prod.fst, (q ∈ as₁ ↔ q ∈ as₂) := fun q hq =>
      hag q (by simp [hq])
    simp only [joinLater]
    by_cases hmem : p ∈ as₁
    · simp [if_pos hmem, if_pos (hp.mp hmem), ih _ _ hag']
    · have hmem₂ : p ∉ as₂ := fun hc => hmem (hp.mpr hc)
      simp only [if_neg hmem, if_neg hmem₂]
      by_cases hsim : T ≤ sim anchor h
      · have hag₂ : ∀ q ∈ rest.map Prod.fst, (q ∈ p :: as₁ ↔ q ∈ p :: as₂) := by
          intro q hq
          simp only [List.mem_cons]
          exact or_congr Iff.rfl (hag' q hq)
        simp [if_pos hsim, ih _ _ hag₂]
      · simp [if_neg hsim, ih _ _ hag']

theorem joinLater_fst_fresh (sim : List Bool → List Bool → ℚ) (T : ℚ) (anchor : List Bool)
    (l : List (String × List Bool)) (assigned : List String) (q : String)
    (hq : q ∈ (joinLater sim T anchor l assigned).1) :
    q ∈ l.map Prod.fst ∧ q ∉ assigned := by
  induction l generalizing assigned with
  | nil => simp [joinLater] at hq
  | cons ph rest ih =>
    obtain ⟨p, h⟩ := ph
    simp only [joinLater] at hq
    by_cases hmem : p ∈ assigned
    · rw [if_pos hmem] at hq
      obtain ⟨h₁, h₂⟩ := ih assigned hq
      exact ⟨by simp [h₁], h₂⟩
    · rw [if_neg hmem] at hq
      by_cases hsim : T ≤ sim anchor h
      · rw [if_pos hsim] at hq
        rcases List.mem_cons.mp hq with rfl | hq'
        · exact ⟨by simp, hmem⟩
        · obtain ⟨h₁, h₂⟩ := ih (p :: assigned) hq'
          exact ⟨by simp [h₁], fun hc => h₂ (by simp [hc])⟩
      · rw [if_neg hsim] at hq
        obtain ⟨h₁, h₂⟩ := ih assigned hq
        exact ⟨by simp [h₁], h₂⟩

theorem clusterGreedy_mem_source (sim : List Bool → List Bool → ℚ) (T : ℚ)
    (l : List (String × List Bool)) (assigned : List String) (g : List String)
    (hg : g ∈ clusterGreedy sim T l assigned) (q : String) (hq : q ∈ g) :
    q ∈ l.map Prod.fst ∧ q ∉ assigned := by
  induction l generalizing assigned with
  | nil => simp [clusterGreedy] at hg
  | cons ph rest ih =>
    obtain ⟨p, h⟩ := ph
    simp only [clusterGreedy] at hg
    by_cases hmem : p ∈ assigned
    · rw [if_pos hmem] at hg
      obtain ⟨h₁, h₂⟩ := ih assigned hg
      exact ⟨by simp [h₁], h₂⟩
    · rw [if_neg hmem] at hg
      by_cases hemp : (joinLater sim T h rest assigned).1.isEmpty
      · rw [if_pos hemp] at hg
        rw [List.isEmpty_iff] at hemp
        rw [joinLater_snd, hemp] at hg
        obtain ⟨h₁, h₂⟩ := ih assigned hg
        exact ⟨by simp [h₁], h₂⟩
      · rw [if_neg hemp] at hg
        rcases List.mem_cons.mp hg with rfl | hg'
        · rcases List.mem_cons.mp hq with rfl | hq'
          · exact ⟨by simp, hmem⟩
          · obtain ⟨h₁, h₂⟩ := joinLater_fst_fresh sim T h rest assigned q hq'
            exact ⟨by simp [h₁], h₂⟩
        · obtain ⟨h₁, h₂⟩ := ih (p :: (joinLater sim T h rest assigned).2) hg'
          rw [joinLater_snd] at h₂
          refine ⟨by simp [h₁], fun hc => h₂ ?_⟩
          simp [hc]

theorem clusterGreedy_two_le (sim : List Bool → List Bool → ℚ) (T : ℚ)
    (l : List (String × List Bool)) (assigned : List String) (g : List String)
    (hg : g ∈ clusterGreedy sim T l assigned) : 2 ≤ g.length := by
  induction l generalizing assigned with
  | nil => simp [clusterGreedy] at hg
  | cons ph rest ih =>
    obtain ⟨p, h⟩ := ph
    simp only [clusterGreedy] at hg
    by_cases hmem : p ∈ assigned
    · rw [if_pos hmem] at hg
      exact ih assigned hg
    · rw [if_neg hmem] at hg
      by_cases hemp : (joinLater sim T h rest assigned).1.isEmpty
      · rw [if_pos hemp] at hg
        exact ih _ hg
      · rw [if_neg hemp] at hg
        rcases List.mem_cons.mp hg with rfl | hg'
        · match hj : (joinLater sim T h rest assigned).1 with
          | [] => rw [hj] at hemp; simp at hemp
          | q :: qs => simp
        · exact ih _ hg'

theorem clusterGreedy_disjoint (sim : List Bool → List Bool → ℚ) (T : ℚ)
    (l : List (String × List Bool)) (assigned : List String) :
    List.Pairwise (fun g₁ g₂ => ∀ q ∈ g₁, q ∉ g₂) (clusterGreedy sim T l assigned) := by
  induction l generalizing assigned with
  | nil => simp [clusterGreedy]
  | cons ph rest ih =>
    obtain ⟨p, h⟩ := ph
    simp only [clusterGreedy]
    by_cases hmem : p ∈ assigned
    · rw [if_pos hmem]; exact ih assigned
    · rw [if_neg hmem]
      by_cases hemp : (joinLater sim T h rest assigned).1.isEmpty
      · rw [if_pos hemp]; exact ih _
      · rw [if_neg hemp]
        refine List.Pairwise.cons ?_ (ih _)
        intro g₂ hg₂ q hq hqg₂
        have hfresh := clusterGreedy_mem_source sim T rest
          (p :: (joinLater sim T h rest assigned).2) g₂ hg₂ q hqg₂
        rcases List.mem_cons.mp hq with rfl | hq'
        · exact hfresh.2 (by simp)
        · refine hfresh.2 ?_
          rw [joinLater_snd]
          simp [List.mem_reverse.mpr hq']

theorem clusterGreedy_eq_spec (sim : List Bool → List Bool → ℚ) (T : ℚ)
    (l : List (String × List Bool)) (as₁ as₂ : List String)
    (hnd : (l.map Prod.fst).Nodup)
    (hag : ∀ q ∈ l.map Prod.fst, (q ∈ as₁ ↔ q ∈ as₂)) :
    clusterGreedy sim T l as₁ = specGreedyAux sim T l as₂ := by
  induction l generalizing as₁ as₂ with
  | nil => rfl
  | cons ph rest ih =>
    obtain ⟨p, h⟩ := ph
    have hndr : (rest.map Prod.fst).Nodup := (List.nodup_cons.mp hnd).2
    have hpn : p ∉ rest.map Prod.fst := (List.nodup_cons.mp hnd).1
    have hp : p ∈ as₁ ↔ p ∈ as₂ := hag p (by simp)
    have hag' : ∀ q ∈ rest.map Prod.fst, (q ∈ as₁ ↔ q ∈ as₂) := fun q hq =>
      hag q (by simp [hq])
    simp only [clusterGreedy, specGreedyAux]
    by_cases hmem : p ∈ as₁
    · rw [if_pos hmem, if_pos (hp.mp hmem)]
      exact ih as₁ as₂ hndr hag'
    · have hmem₂ : p ∉ as₂ := fun hc => hmem (hp.mpr hc)
      rw [if_neg hmem, if_neg hmem₂]
      have hje := joinLater_fst_congr sim T h rest as₁ as₂ hag'
      by_cases hemp : (joinLater sim T h rest as₁).1.isEmpty
      · rw [if_pos hemp]
        rw [List.isEmpty_iff] at hemp
        have hemp₂ : (joinLater sim T h rest as₂).1 = [] := hje ▸ hemp
        have hlen : ¬ 2 ≤ (p :: (joinLater sim T h rest as₂).1).length := by
          rw [hemp₂]; simp
        rw [if_neg hlen]
        rw [joinLater_snd, hemp]
        exact ih as₁ as₂ hndr hag'
      · rw [if_neg hemp]
        rw [List.isEmpty_iff] at hemp
        have hemp₂ : (joinLater sim T h rest as₂).1 ≠ [] := fun hc => hemp (hje ▸ hc)
        have hlen : 2 ≤ (p :: (joinLater sim T h rest as₂).1).length := by
          match hj : (joinLater sim T h rest as₂).1 with
          | [] => exact absurd hj hemp₂
          | q :: qs => simp
        rw [if_pos hlen, hje]
        congr 1
        refine ih _ _ hndr ?_
        intro q hq
        have hqp : q ≠ p := fun hc => hpn (hc ▸ hq)
        rw [joinLater_snd, joinLater_snd, hje]
        simp only [List.mem_cons, List.mem_append, List.mem_reverse]
        constructor
        · rintro (hc | hc | hc)
          · exact absurd hc hqp
          · exact Or.inl hc
          · exact Or.inr ((hag' q hq).mp hc)
        · rintro (hc | hc)
          · exact Or.inr (Or.inl hc)
          · exact Or.inr (Or.inr ((hag' q hq).mpr hc))

theorem findGroup_groupInsert (m : List (String × List String)) (k k' v : String) :
    findGroup (groupInsert m k v) k' =
      if k' = k then some ((findGroup m k).getD [] ++ [v]) else findGroup m k' := by
  induction m with
  | nil =>
    by_cases h : k' = k
    · simp [groupInsert, findGroup, h]
    · simp [groupInsert, findGroup, h, Ne.symm h]
  | cons kv rest ih =>
    obtain ⟨k₀, vs⟩ := kv
    by_cases h₀ : k₀ = k
    · subst h₀
      by_cases h : k' = k₀
      · subst h
        simp [groupInsert, findGroup]
      · simp [groupInsert, findGroup, h, Ne.symm h]
    · by_cases h : k' = k₀
      · subst h
        have h₀s : ¬ k' = k := fun hc => h₀ hc
        simp [groupInsert, findGroup, h₀, h₀s]
      · have hs : ¬ k₀ = k' := fun hc => h hc.symm
        simp [groupInsert, findGroup, h₀, h, hs, ih]

theorem md5GroupsAux_findGroup {S : Type} (A : HashAlg S) (images : List FSEntry)
    (m : List (String × List String)) (k : String) (hk : k ≠ "") :
    (findGroup (md5GroupsAux A images m) k).getD [] =
      (findGroup m k).getD [] ++
        (images.filter fun e => calculate_md5 A e = k).map (·.name) := by
  induction images generalizing m with
  | nil => simp [md5GroupsAux]
  | cons e rest ih =>
    simp only [md5GroupsAux]
    by_cases hd : calculate_md5 A e = ""
    · rw [if_pos hd]
      have hne : ¬ (calculate_md5 A e = k) := fun hc => hk (hc.symm.trans hd)
      have hne' : ¬ (decide (calculate_md5 A e = k) = true) := by simp [hne]
      rw [ih m, List.filter_cons, if_neg hne']
    · rw [if_neg hd]
      by_cases hke : calculate_md5 A e = k
      · rw [ih (groupInsert m (calculate_md5 A e) e.name)]
        rw [findGroup_groupInsert, if_pos hke.symm, hke]
        have hke' : decide (calculate_md5 A e = k) = true := by simp [hke]
        rw [List.filter_cons, if_pos hke']
        simp
      · rw [ih (groupInsert m (calculate_md5 A e) e.name)]
        have hs : ¬ (k = calculate_md5 A e) := fun hc => hke hc.symm
        rw [findGroup_groupInsert, if_neg hs]
        have hke' : ¬ (decide (calculate_md5 A e = k) = true) := by simp [hke]
        rw [List.filter_cons, if_neg hke']

theorem findGroup_mem (m : List (String × List String)) (k : String) (vs : List String)
    (h : findGroup m k = some vs) : (k, vs) ∈ m := by
  induction m with
  | nil => simp [findGroup] at h
  | cons kv rest ih =>
    obtain ⟨k₀, vs₀⟩ := kv
    simp only [findGroup] at h
    by_cases hk : k₀ = k
    · rw [if_pos hk] at h
      subst hk
      simp [Option.some_inj.mp h]
    · rw [if_neg hk] at h
      exact List.mem_cons_of_mem _ (ih h)

theorem groupInsert_mem_source (m : List (String × List String)) (k v k' : String)
    (vs : List String) (h : (k', vs) ∈ groupInsert m k v) (q : String) (hq : q ∈ vs) :
    (∃ vs₀, (k', vs₀) ∈ m ∧ q ∈ vs₀) ∨ q = v := by
  induction m with
  | nil =>
    simp [groupInsert] at h
    obtain ⟨rfl, rfl⟩ := h
    simp at hq
    exact Or.inr hq
  | cons kv rest ih =>
    obtain ⟨k₀, vs₀⟩ := kv
    simp only [groupInsert] at h
    by_cases hk : k₀ = k
    · rw [if_pos hk] at h
      rcases List.mem_cons.mp h with hc | hc
      · obtain ⟨rfl, rfl⟩ := Prod.mk.injEq .. ▸ Prod.ext_iff.mp hc
        rcases List.mem_append.mp hq with hc₂ | hc₂
        · exact Or.inl ⟨vs₀, by simp, hc₂⟩
        · simp at hc₂
          exact Or.inr hc₂
      · exact Or.inl ⟨vs, List.mem_cons_of_mem _ hc, hq⟩
    · rw [if_neg hk] at h
      rcases List.mem_cons.mp h with hc | hc
      · obtain ⟨rfl, rfl⟩ := Prod.mk.injEq .. ▸ Prod.ext_iff.mp hc
        exact Or.inl ⟨vs, by simp, hq⟩
      · rcases ih hc with ⟨vs₁, hm, hq₁⟩ | hv
        · exact Or.inl ⟨vs₁, List.mem_cons_of_mem _ hm, hq₁⟩
        · exact Or.inr hv

theorem md5GroupsAux_mem_source {S : Type} (A : HashAlg S) (images : List FSEntry)
    (m : List (String × List String)) (k : String) (vs : List String)
    (h : (k, vs) ∈ md5GroupsAux A images m) (q : String) (hq : q ∈ vs) :
    (∃ vs₀, (k, vs₀) ∈ m ∧ q ∈ vs₀) ∨ q ∈ images.map (·.name) := by
  induction images generalizing m with
  | nil => exact Or.inl ⟨vs, h, hq⟩
  | cons e rest ih =>
    simp only [md5GroupsAux] at h
    by_cases hd : calculate_md5 A e = ""
    · rw [if_pos hd] at h
      rcases ih _ h with hc | hc
      · exact Or.inl hc
      · exact Or.inr (by simp [hc])
    · rw [if_neg hd] at h
      rcases ih _ h with ⟨vs₁, hm, hq₁⟩ | hc
      · rcases groupInsert_mem_source m _ e.name k vs₁ hm q hq₁ with hc₂ | hc₂
        · exact Or.inl hc₂
        · exact Or.inr (by simp [hc₂])
      · exact Or.inr (by simp [hc])

theorem md5GroupsAux_skip {S : Type} (A : HashAlg S) (l₁ l₂ : List FSEntry) (e : FSEntry)
    (m : List (String × List String)) (he : calculate_md5 A e = "") :
    md5GroupsAux A (l₁ ++ e :: l₂) m = md5GroupsAux A (l₁ ++ l₂) m := by
  induction l₁ generalizing m with
  | nil => simp [md5GroupsAux, he]
  | cons e₀ rest ih =>
    simp only [List.cons_append, md5GroupsAux]
    by_cases hd : calculate_md5 A e₀ = ""
    · rw [if_pos hd, if_pos hd]; exact ih m
    · rw [if_neg hd, if_neg hd]; exact ih _

theorem imageHashes_ids_sub (images : List FSEntry) (q : String)
    (hq : q ∈ (imageHashes images).map Prod.fst) : q ∈ images.map (·.name) := by
  rw [List.mem_map] at hq
  obtain ⟨pr, hpr, rfl⟩ := hq
  rw [imageHashes, List.mem_filterMap] at hpr
  obtain ⟨e, he, hfe⟩ := hpr
  by_cases hs : calculate_perceptual_hash e = ""
  · rw [if_pos hs] at hfe; cases hfe
  · rw [if_neg hs] at hfe
    have hpr : pr = (e.name, hexToBits (calculate_perceptual_hash e).data) :=
      (Option.some_inj.mp hfe).symm
    rw [hpr]
    exact List.mem_map.mpr ⟨e, he, rfl⟩

theorem imageHashes_skip (l₁ l₂ : List FSEntry) (e : FSEntry)
    (he : calculate_perceptual_hash e = "") :
    imageHashes (l₁ ++ e :: l₂) = imageHashes (l₁ ++ l₂) := by
  simp only [imageHashes, List.filterMap_append, List.filterMap_cons, he]
  simp

theorem mem_get_image_files (fs : List FSEntry) (e : FSEntry) :
    e ∈ (get_image_files fs).1 ↔
      e ∈ fs ∧ e.isFile = true ∧ extAllowed e = true ∧ safe_file_access e = true := by
  simp only [get_image_files, List.mem_insertionSort, List.mem_dedup, List.mem_filter,
    Bool.and_eq_true]
  tauto

theorem sorted_get_image_files (fs : List FSEntry) :
    List.Pairwise nameLe (get_image_files fs).1 :=
  @List.sorted_insertionSort FSEntry nameLe _
    ⟨fun a b => lexLe_total a.name.data b.name.data⟩
    ⟨fun a b c hab hbc => lexLe_trans a.name.data b.name.data c.name.data hab hbc⟩
    _

theorem warned_get_image_files (fs : List FSEntry) (e : FSEntry) (hin : e ∈ fs)
    (hf : e.isFile = true) (hx : extAllowed e = true) (hs : safe_file_access e = false) :
    e.name ∈ (get_image_files fs).2 := by
  simp only [get_image_files, List.mem_map]
  refine ⟨e, ?_, rfl⟩
  rw [List.mem_filter]
  exact ⟨List.mem_filter.mpr ⟨hin, by simp [hf, hx]⟩, by simp [hs]⟩

theorem deleteRun_counts (fs : List String) (oc : String → DelOutcome)
    (files : List String) :
    (deleteRun fs oc files).deleted + (deleteRun fs oc files).errors = files.length := by
  induction files generalizing fs with
  | nil => rfl
  | cons p rest ih =>
    simp only [deleteRun]
    by_cases hmem : p ∈ fs
    · rw [if_pos hmem]
      by_cases hc : (oc p).copyOk
      · rw [if_pos hc]
        by_cases hu : (oc p).unlinkOk
        · rw [if_pos hu]
          simp only [List.length_cons]
          rw [← ih (fs.erase p)]
          omega
        · rw [if_neg hu]
          simp only [List.length_cons]
          rw [← ih fs]
          omega
      · rw [if_neg hc]
        simp only [List.length_cons]
        rw [← ih fs]
        omega
    · rw [if_neg hmem]
      simp only [List.length_cons]
      rw [← ih fs]
      omega

theorem deleteRun_safeBackup (fs : List String) (oc : String → DelOutcome)
    (files : List String) (backed : List String) :
    safeBackup backed (deleteRun fs oc files).trace := by
  induction files generalizing fs backed with
  | nil => trivial
  | cons p rest ih =>
    simp only [deleteRun]
    by_cases hmem : p ∈ fs
    · rw [if_pos hmem]
      by_cases hc : (oc p).copyOk
      · rw [if_pos hc]
        by_cases hu : (oc p).unlinkOk
        · rw [if_pos hu]
          exact ⟨by simp, ih (fs.erase p) (p :: backed)⟩
        · rw [if_neg hu]
          exact ih fs (p :: backed)
      · rw [if_neg hc]
        exact ih fs backed
    · rw [if_neg hmem]
      exact ih fs backed

/-! ### Claim theorems -/

/-- C9: for every path in the approved deletion list that exists when the
delete executor processes it, the backup copy is created before the
original is removed — in every trace of `deleteRun`, an `unlink` of a
path is always preceded by a `backupCopy` of that path, whatever the
initial filesystem and whatever the copy/unlink outcomes. -/
theorem C9_backup_before_unlink (fs : List String) (oc : String → DelOutcome)
    (files : List String) :
    safeBackup [] (deleteRun fs oc files).trace :=
  deleteRun_safeBackup fs oc files []

/-- C10: the success and failure counters of the deletion log partition
the request: every requested path increments exactly one of them, so
`successfully_deleted + errors = total_requested` for every processed
deletion request. -/
theorem C10_delete_counts_partition (fs : List String) (oc : String → DelOutcome)
    (files : List String) :
    (deleteRun fs oc files).deleted + (deleteRun fs oc files).errors = files.length :=
  deleteRun_counts fs oc files

/-- C2: the similarity clusterer implements exactly the specified
single-pass greedy algorithm — on the enumeration-ordered list of images
with non-empty fingerprints, the code's loop equals the algorithm worded
as in the spec (skip assigned images, anchor a group, let later
not-yet-assigned similar images join and be marked, keep the group only
with at least 2 members) — and consequently the produced groups are
pairwise disjoint: every image belongs to at most one SimilarGroup.  The
hypothesis that fingerprint ids are distinct reflects that the Python
dict `image_hashes` has distinct keys. -/
theorem C2_greedy_clusterer_matches_spec (T : ℚ) (images : List FSEntry)
    (hnd : ((imageHashes images).map Prod.fst).Nodup) :
    find_perceptual_duplicates T images =
      specGreedyAux pairSimilarity T (imageHashes images) [] ∧
    List.Pairwise (fun g₁ g₂ => ∀ q ∈ g₁, q ∉ g₂) (find_perceptual_duplicates T images) :=
  ⟨clusterGreedy_eq_spec pairSimilarity T (imageHashes images) [] [] hnd (fun _ _ => Iff.rfl),
   clusterGreedy_disjoint pairSimilarity T (imageHashes images) []⟩

/-- Witness for C2 at a concrete two-image input. -/
theorem C2_greedy_clusterer_matches_spec_witness :
    ((imageHashes [fileFlat, fileDiff]).map Prod.fst).Nodup ∧
    (find_perceptual_duplicates (85/100) [fileFlat, fileDiff] =
        specGreedyAux pairSimilarity (85/100) (imageHashes [fileFlat, fileDiff]) [] ∧
      List.Pairwise (fun g₁ g₂ => ∀ q ∈ g₁, q ∉ g₂)
        (find_perceptual_duplicates (85/100) [fileFlat, fileDiff])) :=
  ⟨by decide, C2_greedy_clusterer_matches_spec (85/100) [fileFlat, fileDiff] (by decide)⟩

/-- C3: in the final report of every run, every exact group and every
similar group has at least 2 members — size-1 groups are discarded
before the result is assembled. -/
theorem C3_final_groups_have_two_members {S : Type} (A : HashAlg S) (T : ℚ)
    (fs : List FSEntry) :
    (∀ k vs, (k, vs) ∈ (runDetection A T fs).1.md5_groups → 2 ≤ vs.length) ∧
    (∀ g ∈ (runDetection A T fs).1.perc_groups, 2 ≤ g.length) := by
  constructor
  · intro k vs hmd
    have hmd' : (k, vs) ∈ (md5GroupsAux A (get_image_files fs).1 []).filter
        (fun kv => 1 < kv.2.length) := hmd
    have h₂ := (List.mem_filter.mp hmd').2
    simp only [decide_eq_true_iff] at h₂
    omega
  · intro g hpc
    exact clusterGreedy_two_le pairSimilarity T (imageHashes (get_image_files fs).1) [] g hpc

set_option maxRecDepth 100000 in
/-- Witness for C3 at a concrete run producing one exact group and one
similar group. -/
theorem C3_final_groups_have_two_members_witness :
    2 ≤ (["a.jpg", "c.jpg"] : List String).length ∧
    2 ≤ (["a.jpg", "c.jpg"] : List String).length := by
  have hen : (get_image_files [fileFlat, fileFlat2]).1 = [fileFlat, fileFlat2] := by decide
  have hmdeq : find_md5_duplicates natAlg [fileFlat, fileFlat2] =
      [(calculate_md5 natAlg fileFlat, ["a.jpg", "c.jpg"])] := by decide
  have hmd : ((calculate_md5 natAlg fileFlat : String), ["a.jpg", "c.jpg"]) ∈
      (runDetection natAlg (85/100) [fileFlat, fileFlat2]).1.md5_groups := by
    show _ ∈ find_md5_duplicates natAlg (get_image_files [fileFlat, fileFlat2]).1
    rw [hen, hmdeq]
    simp
  have hih : imageHashes [fileFlat, fileFlat2] =
      [("a.jpg", dhash imgFlat 16), ("c.jpg", dhash imgFlat 16)] := by decide
  have hd0 : hammingDist (dhash imgFlat 16) (dhash imgFlat 16) = 0 := by decide
  have hsim : (85 : ℚ)/100 ≤ pairSimilarity (dhash imgFlat 16) (dhash imgFlat 16) := by
    rw [pairSimilarity, hd0]
    norm_num
  have hpc : ["a.jpg", "c.jpg"] ∈
      (runDetection natAlg (85/100) [fileFlat, fileFlat2]).1.perc_groups := by
    show ["a.jpg", "c.jpg"] ∈
      find_perceptual_duplicates (85/100) (get_image_files [fileFlat, fileFlat2]).1
    rw [hen, find_perceptual_duplicates, hih]
    simp [clusterGreedy, joinLater, hsim]
  exact ⟨(C3_final_groups_have_two_members natAlg (85/100) [fileFlat, fileFlat2]).1
      (calculate_md5 natAlg fileFlat) ["a.jpg", "c.jpg"] hmd,
    (C3_final_groups_have_two_members natAlg (85/100) [fileFlat, fileFlat2]).2
      ["a.jpg", "c.jpg"] hpc⟩

/-- C6: a file unreadable at digest time gets the empty-string sentinel
instead of an exception, is excluded from exact-match grouping, and the
batch result over the remaining files is exactly as if the file were
absent. -/
theorem C6_unreadable_digest_sentinel {S : Type} (A : HashAlg S) (l₁ l₂ : List FSEntry)
    (e : FSEntry) (hu : safe_file_access e = false)
    (hnd : ((l₁ ++ e :: l₂).map (·.name)).Nodup) :
    calculate_md5 A e = "" ∧
    find_md5_duplicates A (l₁ ++ e :: l₂) = find_md5_duplicates A (l₁ ++ l₂) ∧
    ∀ k vs, (k, vs) ∈ find_md5_duplicates A (l₁ ++ e :: l₂) → e.name ∉ vs := by
  have hmd : calculate_md5 A e = "" := by simp [calculate_md5, hu]
  have hskip : find_md5_duplicates A (l₁ ++ e :: l₂) = find_md5_duplicates A (l₁ ++ l₂) := by
    rw [find_md5_duplicates, find_md5_duplicates, md5GroupsAux_skip A l₁ l₂ e [] hmd]
  refine ⟨hmd, hskip, ?_⟩
  intro k vs hkv hmem
  rw [hskip] at hkv
  have hsrc := md5GroupsAux_mem_source A (l₁ ++ l₂) [] k vs
    (List.mem_filter.mp hkv).1 e.name hmem
  rcases hsrc with ⟨vs₀, hm, _⟩ | hsrc
  · simp at hm
  · rw [List.map_append, List.map_cons] at hnd
    have hmid := List.nodup_middle.mp hnd
    rw [List.nodup_cons] at hmid
    rw [List.map_append] at hsrc
    exact hmid.1 hsrc

/-- Witness for C6 at a concrete three-file batch. -/
theorem C6_unreadable_digest_sentinel_witness :
    safe_file_access fileBad = false ∧
    ((([fileFlat] ++ fileBad :: [fileFlat2]).map (·.name)).Nodup) ∧
    (calculate_md5 natAlg fileBad = "" ∧
     find_md5_duplicates natAlg ([fileFlat] ++ fileBad :: [fileFlat2]) =
       find_md5_duplicates natAlg ([fileFlat] ++ [fileFlat2]) ∧
     ∀ k vs, (k, vs) ∈ find_md5_duplicates natAlg ([fileFlat] ++ fileBad :: [fileFlat2]) →
       fileBad.name ∉ vs) :=
  ⟨by decide, by decide,
   C6_unreadable_digest_sentinel natAlg [fileFlat] [fileFlat2] fileBad (by decide) (by decide)⟩

/-- C7: a file whose image decoding fails gets an empty perceptual
fingerprint, is excluded from similarity comparison only — the
similarity result is as if the file were absent, and it is in no
similar group — while its exact-match digest is entirely independent of
the decoded image, and the batch is not aborted. -/
theorem C7_decode_failure_excluded {S : Type} (A : HashAlg S) (T : ℚ)
    (l₁ l₂ : List FSEntry) (e : FSEntry) (img : Option (List (List Nat)))
    (hs : safe_file_access e = true) (hi : e.image = none)
    (hnd : ((l₁ ++ e :: l₂).map (·.name)).Nodup) :
    calculate_perceptual_hash e = "" ∧
    find_perceptual_duplicates T (l₁ ++ e :: l₂) = find_perceptual_duplicates T (l₁ ++ l₂) ∧
    (∀ g ∈ find_perceptual_duplicates T (l₁ ++ e :: l₂), e.name ∉ g) ∧
    calculate_md5 A { e with image := img } = calculate_md5 A e := by
  have hph : calculate_perceptual_hash e = "" := by
    rw [calculate_perceptual_hash, if_pos hs, hi]
  have hskip : find_perceptual_duplicates T (l₁ ++ e :: l₂) =
      find_perceptual_duplicates T (l₁ ++ l₂) := by
    rw [find_perceptual_duplicates, find_perceptual_duplicates, imageHashes_skip l₁ l₂ e hph]
  refine ⟨hph, hskip, ?_, rfl⟩
  intro g hg hmem
  rw [hskip] at hg
  have hsrc := clusterGreedy_mem_source pairSimilarity T (imageHashes (l₁ ++ l₂)) [] g hg
    e.name hmem
  have hin : e.name ∈ (l₁ ++ l₂).map (·.name) :=
    imageHashes_ids_sub (l₁ ++ l₂) e.name (by
      rcases hsrc with ⟨h₁, _⟩
      exact h₁)
  rw [List.map_append, List.map_cons] at hnd
  have hmid := List.nodup_middle.mp hnd
  rw [List.nodup_cons] at hmid
  rw [List.map_append] at hin
  exact hmid.1 hin

/-- Witness for C7 at a concrete three-file batch. -/
theorem C7_decode_failure_excluded_witness :
    safe_file_access fileCorrupt = true ∧
    fileCorrupt.image = none ∧
    ((([fileFlat] ++ fileCorrupt :: [fileFlat2]).map (·.name)).Nodup) ∧
    (calculate_perceptual_hash fileCorrupt = "" ∧
     find_perceptual_duplicates (85/100) ([fileFlat] ++ fileCorrupt :: [fileFlat2]) =
       find_perceptual_duplicates (85/100) ([fileFlat] ++ [fileFlat2]) ∧
     (∀ g ∈ find_perceptual_duplicates (85/100) ([fileFlat] ++ fileCorrupt :: [fileFlat2]),
       fileCorrupt.name ∉ g) ∧
     calculate_md5 natAlg { fileCorrupt with image := some imgFlat } =
       calculate_md5 natAlg fileCorrupt) :=
  ⟨by decide, by decide, by decide,
   C7_decode_failure_excluded natAlg (85/100) [fileFlat] [fileFlat2] fileCorrupt
     (some imgFlat) (by decide) (by decide) (by decide)⟩

theorem hexDigitChar_mem (n : Nat) (h : n < 16) : hexDigitChar n ∈ hexDigits := by
  interval_cases n <;> decide

theorem two_le_length_of_two_mem {α : Type} (l : List α) (a b : α) (ha : a ∈ l)
    (hb : b ∈ l) (hne : a ≠ b) : 2 ≤ l.length := by
  match l with
  | [] => cases ha
  | [x] =>
    simp at ha hb
    exact absurd (ha.trans hb.symm) hne
  | x :: y :: rest => simp only [List.length_cons]; omega

/-- C4: two enumerated readable files with identical byte content get the
same digest — a non-empty 32-character string of lowercase hex digits,
computed by streaming the content in 4096-byte chunks — and their paths
appear as members of the same exact-match group. -/
theorem C4_identical_content_same_exact_group {S : Type} (A : HashAlg S) (fs : List FSEntry)
    (e₁ e₂ : FSEntry) (h₁ : e₁ ∈ (get_image_files fs).1) (h₂ : e₂ ∈ (get_image_files fs).1)
    (hne : e₁.name ≠ e₂.name) (hc : e₁.content = e₂.content) :
    calculate_md5 A e₁ = calculate_md5 A e₂ ∧
    calculate_md5 A e₁ ≠ "" ∧
    (∀ c ∈ (calculate_md5 A e₁).data, c ∈ hexDigits) ∧
    ∃ vs, (calculate_md5 A e₁, vs) ∈ find_md5_duplicates A (get_image_files fs).1 ∧
      e₁.name ∈ vs ∧ e₂.name ∈ vs := by
  have hs₁ : safe_file_access e₁ = true := ((mem_get_image_files fs e₁).mp h₁).2.2.2
  have hs₂ : safe_file_access e₂ = true := ((mem_get_image_files fs e₂).mp h₂).2.2.2
  have heq : calculate_md5 A e₁ = calculate_md5 A e₂ := by
    rw [calculate_md5, calculate_md5, if_pos hs₁, if_pos hs₂, hc]
  have hdig : calculate_md5 A e₁ = ⟨toHexFixed (md5StreamDigest A e₁.content) 32⟩ := by
    rw [calculate_md5, if_pos hs₁]
  have hlen : (toHexFixed (md5StreamDigest A e₁.content) 32).length = 32 := by
    simp [toHexFixed]
  have hsent : calculate_md5 A e₁ ≠ "" := by
    rw [hdig]
    intro hcon
    have hdata : toHexFixed (md5StreamDigest A e₁.content) 32 = [] :=
      congrArg String.data hcon
    rw [hdata] at hlen
    simp at hlen
  have hhex : ∀ c ∈ (calculate_md5 A e₁).data, c ∈ hexDigits := by
    rw [hdig]
    intro c hcmem
    have hcmem' : c ∈ toHexFixed (md5StreamDigest A e₁.content) 32 := hcmem
    rw [toHexFixed, List.mem_map] at hcmem'
    obtain ⟨i, _, rfl⟩ := hcmem'
    exact hexDigitChar_mem _ (Nat.mod_lt _ (by norm_num))
  refine ⟨heq, hsent, hhex, ?_⟩
  have hG := md5GroupsAux_findGroup A (get_image_files fs).1 [] (calculate_md5 A e₁) hsent
  simp only [findGroup, Option.getD_none] at hG
  have hm₁ : e₁.name ∈ ((get_image_files fs).1.filter
      fun e => calculate_md5 A e = calculate_md5 A e₁).map (·.name) :=
    List.mem_map.mpr ⟨e₁, List.mem_filter.mpr ⟨h₁, by simp⟩, rfl⟩
  have hm₂ : e₂.name ∈ ((get_image_files fs).1.filter
      fun e => calculate_md5 A e = calculate_md5 A e₁).map (·.name) :=
    List.mem_map.mpr ⟨e₂, List.mem_filter.mpr ⟨h₂, by simp [heq.symm]⟩, rfl⟩
  match hfg : findGroup (md5GroupsAux A (get_image_files fs).1 []) (calculate_md5 A e₁) with
  | none =>
    rw [hfg, Option.getD_none, List.nil_append] at hG
    rw [← hG] at hm₁
    cases hm₁
  | some vs =>
    rw [hfg, Option.getD_some, List.nil_append] at hG
    rw [← hG] at hm₁ hm₂
    refine ⟨vs, ?_, hm₁, hm₂⟩
    rw [find_md5_duplicates]
    refine List.mem_filter.mpr ⟨findGroup_mem _ _ _ hfg, ?_⟩
    have h2l := two_le_length_of_two_mem vs e₁.name e₂.name hm₁ hm₂ hne
    simp only [decide_eq_true_iff]
    omega

set_option maxRecDepth 100000 in
/-- Witness for C4 at a concrete two-file directory with identical
contents. -/
theorem C4_identical_content_same_exact_group_witness :
    fileFlat ∈ (get_image_files [fileFlat, fileFlat2]).1 ∧
    fileFlat2 ∈ (get_image_files [fileFlat, fileFlat2]).1 ∧
    fileFlat.name ≠ fileFlat2.name ∧
    fileFlat.content = fileFlat2.content ∧
    (calculate_md5 natAlg fileFlat = calculate_md5 natAlg fileFlat2 ∧
     calculate_md5 natAlg fileFlat ≠ "" ∧
     (∀ c ∈ (calculate_md5 natAlg fileFlat).data, c ∈ hexDigits) ∧
     ∃ vs, (calculate_md5 natAlg fileFlat, vs) ∈
         find_md5_duplicates natAlg (get_image_files [fileFlat, fileFlat2]).1 ∧
       fileFlat.name ∈ vs ∧ fileFlat2.name ∈ vs) :=
  ⟨by decide, by decide, by decide, by decide,
   C4_identical_content_same_exact_group natAlg [fileFlat, fileFlat2] fileFlat fileFlat2
     (by decide) (by decide) (by decide) (by decide)⟩

/-- C5 counterexample: the enumerator returns the zero-byte file even
though not one byte can be read from it; Python's `f.read(1)` returns
`b""` without raising on an empty file, so the code's probe passes
while the probe as worded in the claim fails. -/
theorem C5_enumerator_counterexample :
    fileEmpty ∈ (get_image_files [fileEmpty]).1 ∧ ¬ specReadProbe fileEmpty :=
  ⟨by decide, fun h => h.2.2 rfl⟩

/-- C5 (amended): the enumerator returns exactly the regular files whose
lower-cased extension is on the allow-list and which pass the code's
probe — exists, regular file, and an open-plus-read attempt raises no
error (a zero-byte readable file passes); probe failures produce a
warning and are skipped without aborting; the output is in code-point
lexicographic path order. -/
theorem C5_enumerator_amended (fs : List FSEntry) (e : FSEntry) :
    (e ∈ (get_image_files fs).1 ↔
      e ∈ fs ∧ e.isFile = true ∧ extAllowed e = true ∧ safe_file_access e = true) ∧
    List.Pairwise nameLe (get_image_files fs).1 ∧
    (e ∈ fs → e.isFile = true → extAllowed e = true → safe_file_access e = false →
      e.name ∈ (get_image_files fs).2) :=
  ⟨mem_get_image_files fs e, sorted_get_image_files fs,
   fun ha hb hc hd => warned_get_image_files fs e ha hb hc hd⟩

/-- Witness for C5 (amended) at a concrete directory with one readable
and one unreadable file. -/
theorem C5_enumerator_amended_witness :
    fileBad.name ∈ (get_image_files [fileFlat, fileBad]).2 ∧
    List.Pairwise nameLe (get_image_files [fileFlat, fileBad]).1 :=
  ⟨(C5_enumerator_amended [fileFlat, fileBad] fileBad).2.2 (by decide) (by decide)
      (by decide) (by decide),
   (C5_enumerator_amended [fileFlat, fileBad] fileBad).2.1⟩

/-- C8 counterexample: with one readable-but-undecodable (corrupt) image
file and two valid distinct images, the reported `total_images` is 3,
not 2 — the code counts the enumerated accessible files
(find_duplicates.py:107,212); a decode failure does not reduce the
count. -/
theorem C8_scenario_counterexample :
    (runDetection natAlg (85/100) [fileFlat, fileDiff, fileCorrupt]).1.total_images = 3 := by
  show (get_image_files [fileFlat, fileDiff, fileCorrupt]).1.length = 3
  decide

/-- C8 (amended): for a run over a directory with one unreadable image
file and two valid, distinct, accessible images, `total_images` is 2,
the unreadable file appears in no exact and no similar group, and a
warning is recorded for it. -/
theorem C8_unreadable_scenario {S : Type} (A : HashAlg S) (T : ℚ) (e₁ e₂ bad : FSEntry)
    (h₁f : e₁.isFile = true) (h₁x : extAllowed e₁ = true) (h₁r : e₁.readErr = false)
    (h₁i : e₁.image ≠ none)
    (h₂f : e₂.isFile = true) (h₂x : extAllowed e₂ = true) (h₂r : e₂.readErr = false)
    (h₂i : e₂.image ≠ none)
    (hbf : bad.isFile = true) (hbx : extAllowed bad = true) (hbr : bad.readErr = true)
    (hn₁₂ : e₁.name ≠ e₂.name) (hnb₁ : bad.name ≠ e₁.name) (hnb₂ : bad.name ≠ e₂.name) :
    (runDetection A T [e₁, e₂, bad]).1.total_images = 2 ∧
    (∀ k vs, (k, vs) ∈ (runDetection A T [e₁, e₂, bad]).1.md5_groups → bad.name ∉ vs) ∧
    (∀ g ∈ (runDetection A T [e₁, e₂, bad]).1.perc_groups, bad.name ∉ g) ∧
    bad.name ∈ (runDetection A T [e₁, e₂, bad]).2 := by
  have hsafe₁ : safe_file_access e₁ = true := by simp [safe_file_access, h₁f, h₁r]
  have hsafe₂ : safe_file_access e₂ = true := by simp [safe_file_access, h₂f, h₂r]
  have hsafeb : safe_file_access bad = false := by simp [safe_file_access, hbf, hbr]
  have hne₁₂ : e₁ ≠ e₂ := fun hc => hn₁₂ (congrArg FSEntry.name hc)
  have hdedup : ([e₁, e₂] : List FSEntry).dedup = [e₁, e₂] := by
    rw [List.dedup_cons_of_not_mem (by simp [hne₁₂]), List.dedup_cons_of_not_mem (by simp),
      List.dedup_nil]
  have henum : (get_image_files [e₁, e₂, bad]).1 = List.insertionSort nameLe [e₁, e₂] := by
    rw [get_image_files]
    simp only [List.filter_cons, List.filter_nil, h₁f, h₁x, h₂f, h₂x, hbf, hbx, hsafe₁,
      hsafe₂, hsafeb, Bool.and_true, Bool.true_and, Bool.and_false, Bool.false_and,
      if_true, if_false, Bool.and_self, Bool.false_eq_true, Bool.true_eq_false]
    rw [hdedup]
  have hmemname : ∀ q : String, q ∈ (List.insertionSort nameLe [e₁, e₂]).map (·.name) →
      q = e₁.name ∨ q = e₂.name := by
    intro q hq
    rw [List.mem_map] at hq
    obtain ⟨e', he', rfl⟩ := hq
    rw [List.mem_insertionSort] at he'
    rcases List.mem_cons.mp he' with rfl | he'
    · exact Or.inl rfl
    · rcases List.mem_cons.mp he' with rfl | he'
      · exact Or.inr rfl
      · cases he'
  refine ⟨?_, ?_, ?_, ?_⟩
  · show (get_image_files [e₁, e₂, bad]).1.length = 2
    rw [henum]
    rw [List.length_insertionSort]
    rfl
  · intro k vs hkv hmem
    have hkv' : (k, vs) ∈ find_md5_duplicates A (get_image_files [e₁, e₂, bad]).1 := hkv
    rw [find_md5_duplicates] at hkv'
    have hsrc := md5GroupsAux_mem_source A (get_image_files [e₁, e₂, bad]).1 [] k vs
      (List.mem_filter.mp hkv').1 bad.name hmem
    rcases hsrc with ⟨vs₀, hm, _⟩ | hsrc
    · simp at hm
    · rw [henum] at hsrc
      rcases hmemname bad.name hsrc with hc | hc
      · exact hnb₁ hc
      · exact hnb₂ hc
  · intro g hg hmem
    have hg' : g ∈ clusterGreedy pairSimilarity T
        (imageHashes (get_image_files [e₁, e₂, bad]).1) [] := hg
    have hsrc := clusterGreedy_mem_source pairSimilarity T
      (imageHashes (get_image_files [e₁, e₂, bad]).1) [] g hg' bad.name hmem
    have hin := imageHashes_ids_sub (get_image_files [e₁, e₂, bad]).1 bad.name hsrc.1
    rw [henum] at hin
    rcases hmemname bad.name hin with hc | hc
    · exact hnb₁ hc
    · exact hnb₂ hc
  · exact warned_get_image_files [e₁, e₂, bad] bad (by simp) hbf hbx hsafeb

/-- Witness for C8 (amended) at a concrete three-file directory. -/
theorem C8_unreadable_scenario_witness :
    (runDetection natAlg (85/100) [fileFlat, fileDiff, fileBad]).1.total_images = 2 ∧
    (∀ k vs, (k, vs) ∈ (runDetection natAlg (85/100) [fileFlat, fileDiff, fileBad]).1.md5_groups →
      fileBad.name ∉ vs) ∧
    (∀ g ∈ (runDetection natAlg (85/100) [fileFlat, fileDiff, fileBad]).1.perc_groups,
      fileBad.name ∉ g) ∧
    fileBad.name ∈ (runDetection natAlg (85/100) [fileFlat, fileDiff, fileBad]).2 :=
  C8_unreadable_scenario natAlg (85/100) fileFlat fileDiff fileBad
    (by decide) (by decide) (by decide) (by decide)
    (by decide) (by decide) (by decide) (by decide)
    (by decide) (by decide) (by decide)
    (by decide) (by decide) (by decide)

set_option maxRecDepth 100000 in
/-- C1 (code bug): the fingerprint is indeed the 256-bit dHash with
hash-size 16, but the code's similarity (find_duplicates.py:162) divides
the Hamming distance by a hard-coded 64.0 instead of the fingerprint
bit-length 256, contradicting both the spec's formula and the code's own
"normalize to 0-1" comment.  At Hamming distance 20 and threshold 0.85,
the spec's similarity is 0.921875 (the pair should be grouped) while
the code computes 0.6875 and groups nothing. -/
theorem C1_similarity_divisor_bug :
    (dhash imgFlat 16).length = 256 ∧
    hammingDist (dhash imgFlat 16) (dhash imgDiff20 16) = 20 ∧
    pairSimilarity (dhash imgFlat 16) (dhash imgDiff20 16) < 85/100 ∧
    85/100 ≤ specSimilarity (dhash imgFlat 16) (dhash imgDiff20 16) ∧
    pairSimilarity (dhash imgFlat 16) (dhash imgDiff20 16) ≠
      specSimilarity (dhash imgFlat 16) (dhash imgDiff20 16) ∧
    find_perceptual_duplicates (85/100) [fileFlat, fileDiff] = [] := by
  have hlen : (dhash imgFlat 16).length = 256 := by decide
  have hd : hammingDist (dhash imgFlat 16) (dhash imgDiff20 16) = 20 := by decide
  have hpair : pairSimilarity (dhash imgFlat 16) (dhash imgDiff20 16) = 1 - 20/64 := by
    rw [pairSimilarity, hd]
    norm_num
  have hspec : specSimilarity (dhash imgFlat 16) (dhash imgDiff20 16) = 1 - 20/256 := by
    rw [specSimilarity, hd, hlen]
    norm_num
  have hih : imageHashes [fileFlat, fileDiff] =
      [("a.jpg", dhash imgFlat 16), ("b.jpg", dhash imgDiff20 16)] := by decide
  have hnsim : ¬ ((85 : ℚ)/100 ≤ pairSimilarity (dhash imgFlat 16) (dhash imgDiff20 16)) := by
    rw [hpair]
    norm_num
  refine ⟨hlen, hd, by rw [hpair]; norm_num, by rw [hspec]; norm_num,
    by rw [hpair, hspec]; norm_num, ?_⟩
  rw [find_perceptual_duplicates, hih]
  simp [clusterGreedy, joinLater, hnsim]

end DupFinder
